/-
Verification of the Othello bitboard engine: a shallow embedding of
src/othello/src/{board,evaluate,search,engine}.py into Lean 4, with proofs
about the embedded definitions.

Conventions of the embedding:
* Python unbounded non-negative integers become `Nat`; bitwise operators map to
  `&&&`, `|||`, `^^^`, `<<<`, `>>>`.
* Python `x & ~y` on non-negative integers is `pyAndNot x y = x ^^^ (x &&& y)`,
  which clears the bits of `y` from `x` (bitwise identical to Python for
  `x, y ≥ 0`).
* The two-valued string `current_player` becomes the inductive type `Player`.
* Scores are exact in the source (all floats involved are integers well below
  2^53, so IEEE arithmetic on them is exact); they are embedded as `Int`, with
  `float('inf')`/`float('-inf')` embedded by the three-valued type `XInt`.
-/

import Mathlib

set_option maxRecDepth 10000

namespace Othello

inductive Player where
  | black : Player
  | white : Player
deriving DecidableEq, Repr

/-- `board.py`: dataclass `Board` with two bitboards and the side to move. -/
structure Board where
  black_pieces : Nat
  white_pieces : Nat
  current_player : Player
deriving DecidableEq, Repr

/-- Python `'white' if player == 'black' else 'black'`. -/
def oppPlayer (p : Player) : Player :=
  if p = Player.black then Player.white else Player.black

/-- 64-bit all-ones mask `0xFFFFFFFFFFFFFFFF`. -/
def mask64 : Nat := 0xFFFFFFFFFFFFFFFF

/-- `board.py`: `NOT_A_FILE`. -/
def NOT_A_FILE : Nat := 0xFEFEFEFEFEFEFEFE

/-- `board.py`: `NOT_H_FILE`. -/
def NOT_H_FILE : Nat := 0x7F7F7F7F7F7F7F7F

/-- `board.py`: `CORNERS = (1 << A1) | (1 << H1) | (1 << A8) | (1 << H8)`. -/
def CORNERS : Nat := (1 <<< 0) ||| (1 <<< 7) ||| (1 <<< 56) ||| (1 <<< 63)

/-- `board.py`: `DIRECTIONS = [8, 9, 1, -7, -8, -9, -1, 7]`. -/
def DIRECTIONS : List Int := [8, 9, 1, -7, -8, -9, -1, 7]

/-- Python `x & ~y` for non-negative `x`, `y`: clear the bits of `y` in `x`. -/
def pyAndNot (x y : Nat) : Nat := x ^^^ (x &&& y)

/-- Fueled helper for `popcount`: structurally recursive on `fuel` so that the
kernel can evaluate it (`fuel ≥ n` suffices since `n/2 < n` for `n > 0`). -/
def popcountAux : Nat → Nat → Nat
  | 0, _ => 0
  | fuel + 1, n => if n = 0 then 0 else popcountAux fuel (n / 2) + n % 2

/-- `bin(n).count('1')`: the number of 1 bits of `n`. -/
def popcount (n : Nat) : Nat := popcountAux n n

/-- `board.py`: `Board.initial()`. -/
def Board.initial : Board :=
  { black_pieces := (1 <<< 28) ||| (1 <<< 35)
    white_pieces := (1 <<< 27) ||| (1 <<< 36)
    current_player := Player.black }

/-- The per-direction edge mask selected at the top of each direction loop in
`board.py` (`NOT_H_FILE` for right-moving directions, `NOT_A_FILE` for
left-moving ones, no mask for vertical ones). -/
def edgeMask (d : Int) : Nat :=
  if d = 1 ∨ d = 9 ∨ d = -7 then NOT_H_FILE
  else if d = -1 ∨ d = -9 ∨ d = 7 then NOT_A_FILE
  else mask64

/-- `if direction > 0: x << shift else: x >> shift` with `shift = abs(direction)`. -/
def shiftDir (x : Nat) (d : Int) : Nat :=
  if d > 0 then x <<< d.toNat else x >>> (-d).toNat

/-- One step of the ray-extension loop in `get_legal_moves`:
`candidates |= shift(candidates & edge_mask) & opp`. -/
def extendStep (edge : Nat) (d : Int) (opp c : Nat) : Nat :=
  c ||| (shiftDir (c &&& edge) d &&& opp)

/-- The contribution of one direction to the legal-move mask
(`board.py`, body of the direction loop of `get_legal_moves`). -/
def legalDir (own opp empty : Nat) (d : Int) : Nat :=
  let edge := edgeMask d
  let c0 := shiftDir (own &&& edge) d &&& opp
  let c := extendStep edge d opp (extendStep edge d opp (extendStep edge d opp
            (extendStep edge d opp (extendStep edge d opp c0))))
  shiftDir (c &&& edge) d &&& empty

/-- `board.py`: the bitmask computed by `get_legal_moves` before it is turned
into a list of square indices. -/
def get_legal_mask (board : Board) : Nat :=
  let own := if board.current_player = Player.black then board.black_pieces
             else board.white_pieces
  let opp := if board.current_player = Player.black then board.white_pieces
             else board.black_pieces
  let empty := pyAndNot mask64 (own ||| opp)
  DIRECTIONS.foldl (fun acc d => acc ||| legalDir own opp empty d) 0

/-- `board.py`: `get_legal_moves` (the final mask-to-list conversion loops over
squares 0..63 in ascending order). -/
def get_legal_moves (board : Board) : List Nat :=
  let legal_mask := get_legal_mask board
  (List.range 64).filter (fun sq => legal_mask &&& (1 <<< sq) ≠ 0)

/-- The six-iteration directional walk shared by `get_flipped_squares` and
`make_move` in `board.py`: starting from `square`, step along direction `d`
collecting opponent disks into `cand`; on reaching an own disk return the
collected set, on reaching an empty square, the board edge (per the source's
edge checks) or exhausting the six iterations return `0`. -/
def walkDir (own opp : Nat) (d : Int) (edge : Nat) (square : Nat) :
    Nat → Int → Nat → Nat
  | 0, _, _ => 0
  | fuel + 1, pos, cand =>
    let pos' := pos + d
    let blocked :=
      if d > 0 then
        64 ≤ pos' ∨
          ((d = 1 ∨ d = 9 ∨ d = -7) ∧ pyAndNot (1 <<< pos'.toNat) edge ≠ 0) ∨
          ((d = -1 ∨ d = -9 ∨ d = 7) ∧ pyAndNot (1 <<< square) edge ≠ 0)
      else
        pos' < 0 ∨
          ((d = 1 ∨ d = 9 ∨ d = -7) ∧ pyAndNot (1 <<< square) edge ≠ 0) ∨
          ((d = -1 ∨ d = -9 ∨ d = 7) ∧ pyAndNot (1 <<< pos'.toNat) edge ≠ 0)
    if blocked then 0
    else
      let pos_bit := 1 <<< pos'.toNat
      if pos_bit &&& opp ≠ 0 then
        walkDir own opp d edge square fuel pos' (cand ||| pos_bit)
      else if pos_bit &&& own ≠ 0 then cand
      else 0

/-- The flip mask accumulated over all eight directions (`flips` in
`get_flipped_squares` and in `make_move`, whose direction loops are textually
identical in the source). -/
def computeFlips (own opp : Nat) (square : Nat) : Nat :=
  DIRECTIONS.foldl
    (fun flips d => flips ||| walkDir own opp d (edgeMask d) square 6 (square : Int) 0)
    0

/-- `board.py`: `get_flipped_squares`. -/
def get_flipped_squares (board : Board) (square : Nat) : List Nat :=
  let own := if board.current_player = Player.black then board.black_pieces
             else board.white_pieces
  let opp := if board.current_player = Player.black then board.white_pieces
             else board.black_pieces
  let flips := computeFlips own opp square
  (List.range 64).filter (fun sq => flips &&& (1 <<< sq) ≠ 0)

/-- `board.py`: `make_move`. -/
def make_move (board : Board) (square : Nat) : Board :=
  let own := if board.current_player = Player.black then board.black_pieces
             else board.white_pieces
  let opp := if board.current_player = Player.black then board.white_pieces
             else board.black_pieces
  let placed := 1 <<< square
  let flips := computeFlips own opp square
  let own' := own ||| placed ||| flips
  let opp' := pyAndNot opp flips
  if board.current_player = Player.black then
    { black_pieces := own', white_pieces := opp', current_player := Player.white }
  else
    { black_pieces := opp', white_pieces := own', current_player := Player.black }

/-- `board.py`: `pass_turn`. -/
def pass_turn (board : Board) : Board :=
  { board with
    current_player :=
      if board.current_player = Player.black then Player.white else Player.black }

/-- `board.py`: `is_game_over`. -/
def is_game_over (board : Board) : Bool :=
  if get_legal_moves board ≠ [] then false
  else (get_legal_moves (pass_turn board)).length = 0

/-
Evaluation (`evaluate.py`). All the weights are integral and every quantity
computed stays far below 2^53, so the source's float arithmetic is exact and is
embedded as `Int`.
-/

def MOBILITY_WEIGHT : Int := 15
def CORNER_WEIGHT : Int := 120
def X_SQUARE_PENALTY : Int := -60
def PIECE_COUNT_WEIGHT : Int := 1
def STABILITY_WEIGHT : Int := 25
def FRONTIER_WEIGHT : Int := -8
def POSITION_WEIGHT_SCALE : Int := 1
def PARITY_WEIGHT : Int := 15

/-- `evaluate.py`: `POSITION_WEIGHTS` table. -/
def POSITION_WEIGHTS : List Int :=
  [120,  -20,   20,   10,   10,   20,  -20,  120,
   -20,  -40,   -5,   -5,   -5,   -5,  -40,  -20,
    20,   -5,   15,    5,    5,   15,   -5,   20,
    10,   -5,    5,    3,    3,    5,   -5,   10,
    10,   -5,    5,    3,    3,    5,   -5,   10,
    20,   -5,   15,    5,    5,   15,   -5,   20,
   -20,  -40,   -5,   -5,   -5,   -5,  -40,  -20,
   120,  -20,   20,   10,   10,   20,  -20,  120]

/-- One pass of the direction loop inside `count_stable_pieces`: the stable set
is extended within the pass, so later directions see earlier growth. -/
def stableStep (player_pieces : Nat) (stable : Nat) : Nat :=
  DIRECTIONS.foldl
    (fun s d => s ||| (shiftDir (s &&& edgeMask d) d &&& player_pieces))
    stable

/-- The `while changed and iterations < 10` loop of `count_stable_pieces`. -/
def stableLoop (player_pieces : Nat) : Nat → Nat → Nat
  | 0, stable => stable
  | fuel + 1, stable =>
    let stable' := stableStep player_pieces stable
    if stable' ≠ stable then stableLoop player_pieces fuel stable' else stable'

/-- `evaluate.py`: `count_stable_pieces` (the `board` and `opponent_pieces`
arguments are unused by the source body beyond dead assignments). -/
def count_stable_pieces (_board : Board) (player_pieces _opponent_pieces : Nat) : Nat :=
  popcount (stableLoop player_pieces 10 (player_pieces &&& CORNERS))

/-- `evaluate.py`: `count_frontier_pieces` (note the shifts run opposite to the
direction sign: empties are shifted back onto the player's pieces). -/
def count_frontier_pieces (player_pieces opponent_pieces : Nat) : Nat :=
  let occupied := player_pieces ||| opponent_pieces
  let empty := pyAndNot mask64 occupied
  popcount (DIRECTIONS.foldl
    (fun frontier d =>
      frontier |||
        ((if d > 0 then (empty &&& edgeMask d) >>> d.toNat
          else (empty &&& edgeMask d) <<< (-d).toNat) &&& player_pieces))
    0)

/-- `evaluate.py`: `get_positional_value`. -/
def get_positional_value (player_pieces opponent_pieces : Nat) : Int :=
  let pv := (List.range 64).foldl
    (fun (acc : Int × Int) square =>
      let mask := 1 <<< square
      let weight := POSITION_WEIGHTS.getD square 0
      if player_pieces &&& mask ≠ 0 then (acc.1 + weight, acc.2)
      else if opponent_pieces &&& mask ≠ 0 then (acc.1, acc.2 + weight)
      else acc)
    (0, 0)
  pv.1 - pv.2

/-- `evaluate.py`: `get_parity_bonus` (`empty_count` is `Int`-valued as in the
source, where it could in principle go negative on out-of-range bitboards). -/
def get_parity_bonus (board : Board) (player : Player) : Int :=
  let occupied := board.black_pieces ||| board.white_pieces
  let empty_count : Int := 64 - (popcount occupied : Int)
  if empty_count ≥ 20 then 0
  else
    let parity := empty_count % 2
    if board.current_player = player then parity * PARITY_WEIGHT
    else -(parity * PARITY_WEIGHT)

/-- `evaluate.py`: `is_corner_empty`. -/
def is_corner_empty (corner_square : Nat) (board : Board) : Bool :=
  let occupied := board.black_pieces ||| board.white_pieces
  occupied &&& (1 <<< corner_square) = 0

/-- `evaluate.py`: the `x_to_corner` mapping of `get_smart_x_square_penalty`. -/
def x_to_corner : List (Nat × Nat) := [(9, 0), (14, 7), (49, 56), (54, 63)]

/-- `evaluate.py`: `get_smart_x_square_penalty`. -/
def get_smart_x_square_penalty (board : Board) (player_pieces : Nat) : Int :=
  x_to_corner.foldl
    (fun penalty xc =>
      if player_pieces &&& (1 <<< xc.1) ≠ 0 ∧ is_corner_empty xc.2 board then
        penalty + X_SQUARE_PENALTY
      else penalty)
    0

/-- `evaluate.py`: `evaluate` — the full heuristic evaluation. -/
def evaluate (board : Board) (player : Player) : Int :=
  let own_pieces := if player = Player.black then board.black_pieces
                    else board.white_pieces
  let opp_pieces := if player = Player.black then board.white_pieces
                    else board.black_pieces
  let own_board : Board :=
    { black_pieces := board.black_pieces, white_pieces := board.white_pieces
      current_player := player }
  let own_mobility := (get_legal_moves own_board).length
  let opponent := oppPlayer player
  let opp_board : Board :=
    { black_pieces := board.black_pieces, white_pieces := board.white_pieces
      current_player := opponent }
  let opp_mobility := (get_legal_moves opp_board).length
  let score : Int := ((own_mobility : Int) - (opp_mobility : Int)) * MOBILITY_WEIGHT
  let own_stable := count_stable_pieces board own_pieces opp_pieces
  let opp_stable := count_stable_pieces board opp_pieces own_pieces
  let score := score + ((own_stable : Int) - (opp_stable : Int)) * STABILITY_WEIGHT
  let own_frontier := count_frontier_pieces own_pieces opp_pieces
  let opp_frontier := count_frontier_pieces opp_pieces own_pieces
  let score := score + ((own_frontier : Int) - (opp_frontier : Int)) * FRONTIER_WEIGHT
  let score := score + get_positional_value own_pieces opp_pieces * POSITION_WEIGHT_SCALE
  let own_corners := popcount (own_pieces &&& CORNERS)
  let opp_corners := popcount (opp_pieces &&& CORNERS)
  let score := score + ((own_corners : Int) - (opp_corners : Int)) * CORNER_WEIGHT
  let score := score + (get_smart_x_square_penalty board own_pieces
                        - get_smart_x_square_penalty board opp_pieces)
  let score := score + get_parity_bonus board player
  let own_count := popcount own_pieces
  let opp_count := popcount opp_pieces
  score + ((own_count : Int) - (opp_count : Int)) * PIECE_COUNT_WEIGHT

/-- `evaluate.py`: `evaluate_terminal`. -/
def evaluate_terminal (board : Board) (player : Player) : Int :=
  let own_count := if player = Player.black then popcount board.black_pieces
                   else popcount board.white_pieces
  let opp_count := if player = Player.black then popcount board.white_pieces
                   else popcount board.black_pieces
  let piece_diff : Int := (own_count : Int) - (opp_count : Int)
  if piece_diff > 0 then 10000 + piece_diff
  else if piece_diff < 0 then -10000 + piece_diff
  else 0

/-
Search (`search.py`). Scores are floats in the source but take only integral
values and the infinities; they are embedded in the three-valued type `XInt`.
Python dicts become association lists (`alistInsert` conses, `alistGet?` finds
the most recent binding, matching dict overwrite semantics).
-/

/-- `float` values used as search scores: an integer or one of the infinities. -/
inductive XInt where
  | negInf : XInt
  | fin : Int → XInt
  | posInf : XInt
deriving DecidableEq, Repr

/-- Comparison `a <= b` on scores. -/
def XInt.ble : XInt → XInt → Bool
  | XInt.negInf, _ => true
  | XInt.fin _, XInt.negInf => false
  | XInt.fin a, XInt.fin b => a ≤ b
  | XInt.fin _, XInt.posInf => true
  | XInt.posInf, XInt.posInf => true
  | XInt.posInf, _ => false

/-- Comparison `a < b` on scores. -/
def XInt.blt : XInt → XInt → Bool
  | XInt.negInf, XInt.negInf => false
  | XInt.negInf, _ => true
  | XInt.fin _, XInt.negInf => false
  | XInt.fin a, XInt.fin b => a < b
  | XInt.fin _, XInt.posInf => true
  | XInt.posInf, _ => false

/-- Python `max` on scores (`max(a, b)` returns `b` exactly when `a < b`;
on equal values both operands are the same score). -/
def XInt.max (a b : XInt) : XInt := if XInt.ble a b then b else a

/-- Negation of a score. -/
def XInt.neg : XInt → XInt
  | XInt.negInf => XInt.posInf
  | XInt.fin a => XInt.fin (-a)
  | XInt.posInf => XInt.negInf

/-- Addition of scores (the `inf + -inf` case never arises in the engine;
it is given an arbitrary finite value). -/
def XInt.add : XInt → XInt → XInt
  | XInt.fin a, XInt.fin b => XInt.fin (a + b)
  | XInt.negInf, XInt.posInf => XInt.fin 0
  | XInt.posInf, XInt.negInf => XInt.fin 0
  | XInt.negInf, _ => XInt.negInf
  | _, XInt.negInf => XInt.negInf
  | XInt.posInf, _ => XInt.posInf
  | _, XInt.posInf => XInt.posInf

/-- Subtraction of scores. -/
def XInt.sub (a b : XInt) : XInt := XInt.add a (XInt.neg b)

/-- First-match lookup in an association list (Python dict probe). -/
def alistGet? {α : Type} : List (Nat × α) → Nat → Option α
  | [], _ => none
  | (k', v) :: rest, k => if k' = k then some v else alistGet? rest k

/-- Python `d.get(k, default)`. -/
def alistGetD {α : Type} (l : List (Nat × α)) (k : Nat) (d : α) : α :=
  (alistGet? l k).getD d

/-- Python `d[k] = v` (a cons shadows any older binding, since lookups are
first-match). -/
def alistInsert {α : Type} (l : List (Nat × α)) (k : Nat) (v : α) : List (Nat × α) :=
  (k, v) :: l

/-- `search.py`: `board_hash`. -/
def board_hash (board : Board) : Nat :=
  let player_bit := if board.current_player = Player.black then 1 else 0
  (board.black_pieces <<< 65) ||| (board.white_pieces <<< 1) ||| player_bit

/-- Stable insert for a descending sort by `key` (an element is placed after
exactly the earlier elements with strictly greater key). -/
def insertDesc (key : Nat → Int) (x : Nat) : List Nat → List Nat
  | [] => [x]
  | y :: ys => if key y > key x then y :: insertDesc key x ys else x :: y :: ys

/-- Python's `list.sort(key=..., reverse=True)`: a stable descending sort
(equal keys keep their original relative order). -/
def sortDesc (key : Nat → Int) : List Nat → List Nat
  | [] => []
  | x :: xs => insertDesc key x (sortDesc key xs)

/-- `search.py`: `order_moves`. A `killer_moves` of `[]` plays the role of both
Python's `None` and the empty list (both are falsy in the `killer_moves and
move in killer_moves` test); a `history` of `[]` plays the role of `None`
(replaced by `{}` by the source). -/
def order_moves (board : Board) (moves : List Nat) (pv_move : Option Nat)
    (killer_moves : List Nat) (history : List (Nat × Int)) : List Nat :=
  if moves = [] then []
  else
    let cats := moves.foldl
      (fun (acc : List Nat × List Nat × List Nat × List Nat × List Nat) move =>
        let (pv, corners, killers, regular, x_squares) := acc
        let move_bit := 1 <<< move
        if pv_move = some move then
          (pv ++ [move], corners, killers, regular, x_squares)
        else if move_bit &&& CORNERS ≠ 0 then
          (pv, corners ++ [move], killers, regular, x_squares)
        else if killer_moves ≠ [] ∧ move ∈ killer_moves then
          (pv, corners, killers ++ [move], regular, x_squares)
        else if move_bit &&& 0x0000420000004200 ≠ 0 then
          (pv, corners, killers, regular, x_squares ++ [move])
        else
          (pv, corners, killers, regular ++ [move], x_squares))
      ([], [], [], [], [])
    let (pv, corners, killers, regular, x_squares) := cats
    pv ++ corners ++ killers ++
      sortDesc (fun m => alistGetD history m 0) regular ++ x_squares

/-- `search.py`: `TranspositionTable`, a dict from board hash to
`(depth, score, best_move)`. -/
abbrev TTable := List (Nat × (Nat × XInt × Option Nat))

/-- The three mutable tables threaded through `negamax`
(`tt`, `killer_moves`, `history`). -/
structure SearchState where
  tt : TTable
  killer_moves : List (Nat × List Nat)
  history : List (Nat × Int)
deriving Repr

/-
`search.py`: `solve_endgame`. The source recursion is bounded only by the game
running out of squares; the embedding adds an explicit `fuel` parameter
(decremented on every recursive call) and returns `none` on exhaustion, so any
`some` result is a value the source would compute. The move loop is a separate
structurally recursive function that receives the recursive search (at one
smaller fuel) as the function argument `f`, keeping every definition
kernel-reducible.
-/

/-- The move loop of `solve_endgame`, threading
`(best_score, best_move, alpha, tt)`; a β-cutoff stops the loop. `f` is the
recursive solver applied to the child positions. -/
def solveLoopF
    (f : Board → XInt → XInt → Player → TTable → Option (XInt × Option Nat × TTable))
    (board : Board) (player : Player) (beta : XInt) :
    List Nat → XInt → Option Nat → XInt → TTable →
    Option (XInt × Option Nat × TTable)
  | [], best_score, best_move, _, tt => some (best_score, best_move, tt)
  | move :: rest, best_score, best_move, alpha, tt =>
    let new_board := make_move board move
    match f new_board beta.neg alpha.neg (oppPlayer player) tt with
    | none => none
    | some (s, _, tt') =>
      let score := s.neg
      let bestPair :=
        if XInt.blt best_score score then (score, some move)
        else (best_score, best_move)
      let alpha' := XInt.max alpha score
      if XInt.ble beta alpha' then some (bestPair.1, bestPair.2, tt')
      else solveLoopF f board player beta rest bestPair.1 bestPair.2 alpha' tt'

/-- `search.py`: `solve_endgame` (fueled). -/
def solve_endgame : Nat → Board → XInt → XInt → Player → TTable →
    Option (XInt × Option Nat × TTable)
  | 0, _, _, _, _, _ => none
  | fuel + 1, board, alpha, beta, player, tt =>
    let h := board_hash board
    match alistGet? tt h with
    | some (_, stored_score, stored_move) => some (stored_score, stored_move, tt)
    | none =>
      if is_game_over board then
        some (XInt.fin (evaluate_terminal board player), none, tt)
      else
        let moves := get_legal_moves board
        if moves = [] then
          match solve_endgame fuel (pass_turn board) beta.neg alpha.neg
              (oppPlayer player) tt with
          | none => none
          | some (score, _, tt') => some (score.neg, none, tt')
        else
          let ordered := order_moves board moves none [] []
          match solveLoopF (fun b a bb p t => solve_endgame fuel b a bb p t)
              board player beta ordered XInt.negInf ordered.head? alpha tt with
          | none => none
          | some (best_score, best_move, tt') =>
            some (best_score, best_move,
              alistInsert tt' h (9999, best_score, best_move))

/-- The shape of a move-ordering function (the parameters `order_moves` takes:
board, legal moves, PV hint, this ply's killer list, history table). -/
abbrev OrderFn :=
  Board → List Nat → Option Nat → List Nat → List (Nat × Int) → List Nat

/-- The move loop of `negamax`, threading `(best_score, best_move, alpha, st)`.
`f` is the recursive search applied to the child positions (at depth one less,
with the perspectives already swapped); a β-cutoff records the killer move and
the history bonus `depth * depth` and stops the loop. -/
def negaLoopF
    (f : Board → XInt → XInt → SearchState → Option (XInt × Option Nat × SearchState))
    (board : Board) (depth : Nat) (current_depth : Nat) (beta : XInt) :
    List Nat → XInt → Option Nat → XInt → SearchState →
    Option (XInt × Option Nat × SearchState)
  | [], best_score, best_move, _, st => some (best_score, best_move, st)
  | move :: rest, best_score, best_move, alpha, st =>
    let new_board := make_move board move
    match f new_board beta.neg alpha.neg st with
    | none => none
    | some (s, _, st') =>
      let score := s.neg
      let bestPair :=
        if XInt.blt best_score score then (score, some move)
        else (best_score, best_move)
      let alpha' := XInt.max alpha score
      if XInt.ble beta alpha' then
        let cur := alistGetD st'.killer_moves current_depth []
        let killers' := if move ∈ cur then cur else (move :: cur).take 2
        let st'' := { st' with
          killer_moves := alistInsert st'.killer_moves current_depth killers'
          history := alistInsert st'.history move
            (alistGetD st'.history move 0 + (depth : Int) * (depth : Int)) }
        some (bestPair.1, bestPair.2, st'')
      else
        negaLoopF f board depth current_depth beta rest
          bestPair.1 bestPair.2 alpha' st'

/-- `search.py`: `negamax`, parametrized by the move-ordering function `ord`
(the source fixes `ord := order_moves`; see `negamax` below). Recursion on
`depth` is structural (the source's `if depth == 0` test becomes the match on
`depth`); the `fuel` only feeds the endgame solver. -/
def negamaxOrd (ord : OrderFn) (fuel : Nat) : Board → Nat → XInt → XInt →
    Player → SearchState → Option Nat → Nat →
    Option (XInt × Option Nat × SearchState)
  | board, depth, alpha, beta, player, st, pv_move, current_depth =>
    let occupied := board.black_pieces ||| board.white_pieces
    let empty_count : Int := 64 - (popcount occupied : Int)
    if empty_count ≤ 15 then
      match solve_endgame fuel board alpha beta player st.tt with
      | none => none
      | some (score, move, tt') => some (score, move, { st with tt := tt' })
    else
      let h := board_hash board
      -- a TT hit with insufficient stored depth falls through to the search
      let hit : Option (XInt × Option Nat) :=
        match alistGet? st.tt h with
        | some (stored_depth, stored_score, stored_move) =>
          if stored_depth ≥ depth then some (stored_score, stored_move) else none
        | none => none
      match hit with
      | some (stored_score, stored_move) => some (stored_score, stored_move, st)
      | none =>
        match depth with
        | 0 => some (XInt.fin (evaluate board player), none, st)
        | dp + 1 =>
          if is_game_over board then
            some (XInt.fin (evaluate_terminal board player), none, st)
          else
            let moves := get_legal_moves board
            if moves = [] then
              match negamaxOrd ord fuel (pass_turn board) dp beta.neg
                  alpha.neg (oppPlayer player) st none (current_depth + 1) with
              | none => none
              | some (score, _, st') => some (score.neg, none, st')
            else
              let depth_killers := alistGetD st.killer_moves current_depth []
              let ordered := ord board moves pv_move depth_killers st.history
              match negaLoopF
                  (fun b a bb stx => negamaxOrd ord fuel b dp a bb
                    (oppPlayer player) stx none (current_depth + 1))
                  board (dp + 1) current_depth beta ordered
                  XInt.negInf ordered.head? alpha st with
              | none => none
              | some (best_score, best_move, st') =>
                some (best_score, best_move,
                  { st' with
                    tt := alistInsert st'.tt h (dp + 1, best_score, best_move) })

/-- `search.py`: `negamax` — `negamaxOrd` at the source's move ordering. -/
def negamax : Nat → Board → Nat → XInt → XInt → Player → SearchState →
    Option Nat → Nat → Option (XInt × Option Nat × SearchState) :=
  negamaxOrd order_moves

/-
Engine (`engine.py`). Wall-clock readings (`time.time()`) are modelled by an
arbitrary stream `times : Nat → Int` of successive clock values, consumed one
index per call; the `while True` loop terminates because `depth` is bumped
every iteration and the source breaks at `depth > 50`.
-/

/-- `engine.py`: the mutable fields of `OthelloEngine`. -/
structure EngineState where
  tt : TTable
  killer_moves : List (Nat × List Nat)
  history : List (Nat × Int)
  nodes_searched : Nat
  max_depth_reached : Nat
  pv_move : Option Nat
deriving Repr

/-- `engine.py`: `ASPIRATION_WINDOW = 50.0`. -/
def ASPIRATION_WINDOW : Int := 50

/-- The iterative-deepening `while True` loop of `get_best_move`. `clk` is the
index of the next clock reading; `iters` is a structural iteration budget (50
at the call site, which the `depth > 50` break of the source never exceeds,
since `depth` starts at 1 and grows by one per iteration). -/
def gbmLoop (fuel : Nat) (times : Nat → Int) (start_time time_limit : Int)
    (board : Board) : Nat → Nat → Nat → Option Nat → XInt → EngineState →
    Option ((Option Nat × XInt × Nat) × EngineState)
  | 0, _, _, _, _, _ => none
  | iters + 1, clk, depth, best_move, best_score, st =>
    let elapsed := times clk - start_time
    let clk := clk + 1
    if elapsed ≥ time_limit ∧ depth > 1 then
      some ((best_move, best_score, st.max_depth_reached), st)
    else
      let ab :=
        if depth ≤ 2 then (XInt.negInf, XInt.posInf)
        else (best_score.sub (XInt.fin ASPIRATION_WINDOW),
              best_score.add (XInt.fin ASPIRATION_WINDOW))
      match negamax fuel board depth ab.1 ab.2 board.current_player
          ⟨st.tt, st.killer_moves, st.history⟩ st.pv_move 0 with
      | none => none
      | some (score, move, ss) =>
        let research : Option (XInt × Option Nat × SearchState) :=
          if XInt.ble score ab.1 then
            negamax fuel board depth XInt.negInf ab.2 board.current_player ss
              st.pv_move 0
          else if XInt.ble ab.2 score then
            negamax fuel board depth ab.1 XInt.posInf board.current_player ss
              st.pv_move 0
          else some (score, move, ss)
        match research with
        | none => none
        | some (score, move, ss') =>
          let st' := { st with tt := ss'.tt, killer_moves := ss'.killer_moves,
                               history := ss'.history }
          let upd :=
            match move with
            | some m => (some m, score,
                { st' with pv_move := some m, max_depth_reached := depth })
            | none => (best_move, best_score, st')
          let elapsed2 := times clk - start_time
          let clk := clk + 1
          if elapsed2 ≥ time_limit then
            some ((upd.1, upd.2.1, upd.2.2.max_depth_reached), upd.2.2)
          else if depth + 1 > 50 then
            some ((upd.1, upd.2.1, upd.2.2.max_depth_reached), upd.2.2)
          else
            gbmLoop fuel times start_time time_limit board iters clk (depth + 1)
              upd.1 upd.2.1 upd.2.2

/-- `engine.py`: `OthelloEngine.get_best_move`. -/
def get_best_move (fuel : Nat) (times : Nat → Int) (board : Board)
    (time_limit : Int) (st : EngineState) :
    Option ((Option Nat × XInt × Nat) × EngineState) :=
  let st := { st with nodes_searched := 0, max_depth_reached := 0 }
  let moves := get_legal_moves board
  match moves with
  | [] => some ((none, XInt.fin 0, 0), st)
  | [m] => some ((some m, XInt.fin 0, 0), { st with pv_move := some m })
  | m0 :: _ =>
    let start_time := times 0
    let st := { st with tt := [], killer_moves := [] }
    gbmLoop fuel times start_time time_limit board 50 1 1 (some m0) (XInt.fin 0) st

/-
Specification-side comparator: the exact game-theoretic value. This definition
follows the spec's words (§4.3.2 terminal scoring, §4.4.3 "returns exact
game-theoretic value", §8 S8) over the engine's own move semantics: the value
of a game-over position is `evaluate_terminal`; a position where the side to
move must pass is worth the negation of the passed position's value; otherwise
the value is the maximum over legal moves of the negated child value. `fuel`
bounds the recursion; any `some` result is the true value.
-/
/-- Maximum over the move list of the negated child value computed by `f`. -/
def pvBestF (f : Board → Player → Option Int) (board : Board) (player : Player) :
    List Nat → Option Int
  | [] => none
  | [m] => (f (make_move board m) (oppPlayer player)).map (fun v => -v)
  | m :: m' :: rest =>
    match f (make_move board m) (oppPlayer player),
        pvBestF f board player (m' :: rest) with
    | some v, some b => some (max (-v) b)
    | _, _ => none

/-- The perfect-play (minimax) value of `board` for `player`. A position is
over exactly when neither the side to move nor (after a pass) the opponent has
a legal move, which is `is_game_over`'s definition, so the two tests are fused
into one case split on the move lists. -/
def perfectValue : Nat → Board → Player → Option Int
  | 0, _, _ => none
  | fuel + 1, board, player =>
    match get_legal_moves board with
    | [] =>
      let passed := pass_turn board
      if get_legal_moves passed = [] then some (evaluate_terminal board player)
      else (perfectValue fuel passed (oppPlayer player)).map (fun v => -v)
    | m :: rest => pvBestF (fun b p => perfectValue fuel b p) board player (m :: rest)

/-
Concrete boards used by the claim theorems.
-/

/-- Spec §8 S4: `black = 0`, `white = {D4, E4}` (squares 27, 28), Black to move. -/
def scenarioS4 : Board := ⟨0, (1 <<< 27) ||| (1 <<< 28), Player.black⟩

/-- Black on H1 (square 7), White on G1 (square 6), Black to move: square F1 (5)
is reported legal, yet the flip walk breaks upon stepping onto the H-file
before it can see the bracketing black disk. -/
def flipBugBoard : Board := ⟨1 <<< 7, 1 <<< 6, Player.black⟩

/-- A valid position with 5 empty squares, Black to move, on which the endgame
solver returns an inexact score (found by comparing `solve_endgame` against
`perfectValue`). -/
def endgameBugBoard : Board :=
  ⟨0x83c2023219148b81, 0x543dfdc5e4eb743e, Player.black⟩

/-
Popcount lemmas.
-/

lemma popcountAux_congr :
    ∀ (n f₁ f₂ : Nat), n ≤ f₁ → n ≤ f₂ → popcountAux f₁ n = popcountAux f₂ n := by
  intro n
  induction n using Nat.strong_induction_on with
  | _ n ih =>
    intro f₁ f₂ h₁ h₂
    match f₁, f₂ with
    | 0, 0 => rfl
    | 0, g + 1 =>
      have : n = 0 := by omega
      subst this; simp [popcountAux]
    | g + 1, 0 =>
      have : n = 0 := by omega
      subst this; simp [popcountAux]
    | g₁ + 1, g₂ + 1 =>
      by_cases hn : n = 0
      · subst hn; simp [popcountAux]
      · simp only [popcountAux, if_neg hn]
        rw [ih (n / 2) (by omega) g₁ g₂ (by omega) (by omega)]

lemma popcount_div2 (n : Nat) : popcount n = popcount (n / 2) + n % 2 := by
  by_cases hn : n = 0
  · subst hn; rfl
  · obtain ⟨m, rfl⟩ : ∃ m, n = m + 1 := ⟨n - 1, by omega⟩
    show popcountAux (m + 1) (m + 1) = _
    simp only [popcountAux, if_neg hn]
    rw [popcountAux_congr ((m + 1) / 2) m ((m + 1) / 2) (by omega) (le_refl _)]
    rfl

lemma popcount_lor_disjoint :
    ∀ x y : Nat, x &&& y = 0 → popcount (x ||| y) = popcount x + popcount y := by
  intro x
  induction x using Nat.strong_induction_on with
  | _ x ih =>
    intro y h
    by_cases hx : x = 0
    · subst hx
      rw [Nat.zero_or]
      have h0 : popcount 0 = 0 := rfl
      rw [h0, Nat.zero_add]
    · have h2 : (x / 2) &&& (y / 2) = 0 := by
        rw [← Nat.and_div_two, h]
      have hrec := ih (x / 2) (by omega) (y / 2) h2
      have hbit : (x ||| y) % 2 = x % 2 + y % 2 := by
        have h0 : ¬(x % 2 = 1 ∧ y % 2 = 1) := by
          rintro ⟨hx1, hy1⟩
          have : (x &&& y) % 2 = 1 := Nat.and_mod_two_eq_one.mpr ⟨hx1, hy1⟩
          rw [h] at this
          omega
        have hor := @Nat.or_mod_two_eq_one x y
        have hx2 : x % 2 < 2 := Nat.mod_lt _ (by omega)
        have hy2 : y % 2 < 2 := Nat.mod_lt _ (by omega)
        have hxy2 : (x ||| y) % 2 < 2 := Nat.mod_lt _ (by omega)
        omega
      calc popcount (x ||| y) = popcount ((x ||| y) / 2) + (x ||| y) % 2 :=
            popcount_div2 _
        _ = popcount (x / 2 ||| y / 2) + (x % 2 + y % 2) := by
            rw [Nat.or_div_two, hbit]
        _ = (popcount (x / 2) + popcount (y / 2)) + (x % 2 + y % 2) := by rw [hrec]
        _ = (popcount (x / 2) + x % 2) + (popcount (y / 2) + y % 2) := by omega
        _ = popcount x + popcount y := by rw [← popcount_div2, ← popcount_div2]

lemma popcount_two_pow (k : Nat) : popcount (2 ^ k) = 1 := by
  induction k with
  | zero => decide
  | succ n ih =>
    rw [popcount_div2 (2 ^ (n + 1))]
    have h1 : 2 ^ (n + 1) / 2 = 2 ^ n := by
      rw [Nat.pow_succ, Nat.mul_div_cancel _ (by omega)]
    have h2 : 2 ^ (n + 1) % 2 = 0 := by
      rw [Nat.pow_succ]; omega
    rw [h1, h2, ih]

lemma land_two_pow_of_testBit_false {x : Nat} {k : Nat} (hx : x.testBit k = false) :
    x &&& 2 ^ k = 0 := by
  rw [Nat.and_two_pow, hx]
  simp

lemma popcount_lor_two_pow {x k : Nat} (hx : x.testBit k = false) :
    popcount (x ||| 2 ^ k) = popcount x + 1 := by
  rw [popcount_lor_disjoint x (2 ^ k) (land_two_pow_of_testBit_false hx),
    popcount_two_pow]

/-
Bit-level lemmas about the embedded primitives.
-/

lemma pyAndNot_testBit (x y i : Nat) :
    (pyAndNot x y).testBit i = (x.testBit i && !(y.testBit i)) := by
  simp only [pyAndNot, Nat.testBit_xor, Nat.testBit_and]
  cases x.testBit i <;> cases y.testBit i <;> rfl

lemma mask64_eq : mask64 = 2 ^ 64 - 1 := by norm_num [mask64]

lemma empty_testBit (z i : Nat) :
    (pyAndNot mask64 z).testBit i = (decide (i < 64) && !(z.testBit i)) := by
  rw [pyAndNot_testBit, mask64_eq, Nat.testBit_two_pow_sub_one]

lemma land_shift_one_ne_zero {x sq : Nat} :
    x &&& (1 <<< sq) ≠ 0 ↔ x.testBit sq = true := by
  rw [Nat.shiftLeft_eq, one_mul, Nat.and_two_pow]
  cases hb : x.testBit sq <;> simp [hb, Nat.pow_eq_zero]

lemma legalDir_testBit_empty {own opp empty : Nat} {d : Int} {i : Nat}
    (h : (legalDir own opp empty d).testBit i = true) : empty.testBit i = true := by
  simp only [legalDir, Nat.testBit_and, Bool.and_eq_true] at h
  exact h.2

lemma foldl_legalDir_testBit {own opp empty : Nat} {i : Nat} :
    ∀ (l : List Int) (acc : Nat),
      (l.foldl (fun a d => a ||| legalDir own opp empty d) acc).testBit i = true →
      acc.testBit i = true ∨ empty.testBit i = true := by
  intro l
  induction l with
  | nil => intro acc h; exact Or.inl h
  | cons d rest ih =>
    intro acc h
    rcases ih _ h with h' | h'
    · rw [Nat.testBit_or] at h'
      rcases Bool.or_eq_true_iff.mp h' with h'' | h''
      · exact Or.inl h''
      · exact Or.inr (legalDir_testBit_empty h'')
    · exact Or.inr h'

lemma get_legal_mask_testBit {b : Board} {sq : Nat}
    (h : (get_legal_mask b).testBit sq = true) :
    sq < 64 ∧ (b.black_pieces ||| b.white_pieces).testBit sq = false := by
  cases hp : b.current_player <;>
  · simp only [get_legal_mask, hp, reduceCtorEq, if_true, if_false, reduceIte] at h
    rcases foldl_legalDir_testBit DIRECTIONS 0 h with h0 | he
    · simp at h0
    · rw [empty_testBit] at he
      simp only [Bool.and_eq_true] at he
      obtain ⟨h1, h2⟩ := he
      refine ⟨by simpa using h1, ?_⟩
      rw [Bool.not_eq_eq_eq_not, Bool.not_true] at h2
      first
        | exact h2
        | (rw [Nat.lor_comm] at h2; exact h2)

lemma mem_get_legal_moves {b : Board} {sq : Nat} :
    sq ∈ get_legal_moves b ↔ sq < 64 ∧ (get_legal_mask b).testBit sq = true := by
  simp only [get_legal_moves, List.mem_filter, List.mem_range, decide_eq_true_eq]
  constructor
  · rintro ⟨h1, h2⟩; exact ⟨h1, land_shift_one_ne_zero.mp h2⟩
  · rintro ⟨h1, h2⟩; exact ⟨h1, land_shift_one_ne_zero.mpr h2⟩

lemma legal_move_not_occupied {b : Board} {sq : Nat} (h : sq ∈ get_legal_moves b) :
    sq < 64 ∧ (b.black_pieces ||| b.white_pieces).testBit sq = false := by
  obtain ⟨h1, h2⟩ := mem_get_legal_moves.mp h
  exact get_legal_mask_testBit h2

/-
The flip mask contains only opponent disks.
-/

lemma walkDir_subset_opp {own opp : Nat} {d : Int} {edge square : Nat} :
    ∀ (fuel : Nat) (pos : Int) (cand : Nat),
      (∀ i, cand.testBit i = true → opp.testBit i = true) →
      ∀ i, (walkDir own opp d edge square fuel pos cand).testBit i = true →
        opp.testBit i = true := by
  intro fuel
  induction fuel with
  | zero =>
    intro pos cand hc i h
    simp [walkDir] at h
  | succ n ih =>
    intro pos cand hc i h
    rw [walkDir] at h
    split at h <;>
    · split at h
      · simp at h
      · simp only [ne_eq] at h
        split at h
        · rename_i hopp
          refine ih _ _ ?_ i h
          intro j hj
          rw [Nat.testBit_or] at hj
          rcases Bool.or_eq_true_iff.mp hj with hj' | hj'
          · exact hc j hj'
          · rw [Nat.shiftLeft_eq, one_mul, Nat.testBit_two_pow] at hj'
            have hp2 : (pos + d).toNat = j := by simpa using hj'
            subst hp2
            rw [Nat.land_comm] at hopp
            exact land_shift_one_ne_zero.mp hopp
        · split at h
          · exact hc i h
          · simp at h

lemma computeFlips_subset_opp {own opp square : Nat} :
    ∀ i, (computeFlips own opp square).testBit i = true → opp.testBit i = true := by
  have haux : ∀ (l : List Int) (acc : Nat),
      (∀ i, acc.testBit i = true → opp.testBit i = true) →
      ∀ i, ((l.foldl
        (fun f d => f ||| walkDir own opp d (edgeMask d) square 6 (square : Int) 0)
        acc).testBit i = true) → opp.testBit i = true := by
    intro l
    induction l with
    | nil => intro acc hc i h; exact hc i h
    | cons d rest ih =>
      intro acc hc i h
      refine ih _ ?_ i h
      intro j hj
      rw [Nat.testBit_or] at hj
      rcases Bool.or_eq_true_iff.mp hj with hj' | hj'
      · exact hc j hj'
      · exact walkDir_subset_opp 6 (square : Int) 0 (by simp) j hj'
  intro i h
  exact haux DIRECTIONS 0 (by simp) i h

/-
`make_move` preserves disjointness and adds exactly one disk.
-/

lemma union_after_move {own opp flips placed : Nat}
    (hf : ∀ i, flips.testBit i = true → opp.testBit i = true) :
    (own ||| placed ||| flips) ||| pyAndNot opp flips = (own ||| opp) ||| placed := by
  apply Nat.eq_of_testBit_eq
  intro i
  simp only [Nat.testBit_or, pyAndNot_testBit]
  cases hfi : flips.testBit i
  · cases own.testBit i <;> cases opp.testBit i <;> cases placed.testBit i <;> simp
  · have := hf i hfi
    simp [this]

lemma disj_after_move {own opp flips placed : Nat}
    (hd : own &&& opp = 0)
    (hpl : ∀ i, placed.testBit i = true → (own ||| opp).testBit i = false)
    (hf : ∀ i, flips.testBit i = true → opp.testBit i = true) :
    (own ||| placed ||| flips) &&& pyAndNot opp flips = 0 := by
  apply Nat.eq_of_testBit_eq
  intro i
  simp only [Nat.testBit_and, Nat.testBit_or, pyAndNot_testBit, Nat.zero_testBit]
  have hdi : ¬(own.testBit i = true ∧ opp.testBit i = true) := by
    rintro ⟨h1, h2⟩
    have : (own &&& opp).testBit i = true := by
      rw [Nat.testBit_and, h1, h2]; rfl
    rw [hd] at this
    simp at this
  cases hfi : flips.testBit i
  · cases hoi : opp.testBit i
    · simp
    · have hnown : own.testBit i = false := by
        cases h' : own.testBit i
        · rfl
        · exact absurd ⟨h', hoi⟩ hdi
      have hnpl : placed.testBit i = false := by
        cases h' : placed.testBit i
        · rfl
        · have := hpl i h'
          rw [Nat.testBit_or, hoi] at this
          simp at this
      simp [hnown, hnpl]
  · simp

/-- The occupancy of the board after a legal move is the old occupancy plus the
placed disk. -/
lemma make_move_occupied {b : Board} {sq : Nat} (hsq : sq ∈ get_legal_moves b) :
    (make_move b sq).black_pieces ||| (make_move b sq).white_pieces =
      (b.black_pieces ||| b.white_pieces) ||| 1 <<< sq := by
  cases hp : b.current_player <;>
    simp only [make_move, hp, reduceCtorEq, if_true, if_false, reduceIte]
  · exact union_after_move computeFlips_subset_opp
  · rw [Nat.lor_comm]
    rw [union_after_move computeFlips_subset_opp]
    rw [Nat.lor_comm b.white_pieces b.black_pieces]

/-- C3 helper: a legal move preserves `black &&& white = 0`. -/
lemma make_move_disjoint {b : Board} {sq : Nat}
    (hd : b.black_pieces &&& b.white_pieces = 0) (hsq : sq ∈ get_legal_moves b) :
    (make_move b sq).black_pieces &&& (make_move b sq).white_pieces = 0 := by
  have hocc := (legal_move_not_occupied hsq).2
  cases hp : b.current_player <;>
    simp only [make_move, hp, reduceCtorEq, if_true, if_false, reduceIte]
  · refine disj_after_move hd ?_ computeFlips_subset_opp
    intro i hi
    rw [Nat.shiftLeft_eq, one_mul, Nat.testBit_two_pow] at hi
    have : sq = i := by simpa using hi
    subst this
    exact hocc
  · rw [Nat.land_comm]
    refine disj_after_move (by rw [Nat.land_comm]; exact hd) ?_ computeFlips_subset_opp
    intro i hi
    rw [Nat.shiftLeft_eq, one_mul, Nat.testBit_two_pow] at hi
    have : sq = i := by simpa using hi
    subst this
    rw [Nat.lor_comm]
    exact hocc

/-- C3 helper: a legal move increases the total popcount by exactly one. -/
lemma make_move_popcount {b : Board} {sq : Nat} (hsq : sq ∈ get_legal_moves b) :
    popcount ((make_move b sq).black_pieces ||| (make_move b sq).white_pieces) =
      popcount (b.black_pieces ||| b.white_pieces) + 1 := by
  rw [make_move_occupied hsq, Nat.shiftLeft_eq, one_mul]
  exact popcount_lor_two_pow (legal_move_not_occupied hsq).2

/-
Bit recovery lemmas for `board_hash`.
-/

lemma board_hash_testBit_zero (b : Board) :
    (board_hash b).testBit 0 = decide (b.current_player = Player.black) := by
  cases hcp : b.current_player <;>
    simp [board_hash, hcp, Nat.testBit_or, Nat.testBit_shiftLeft]

lemma board_hash_testBit_white (b : Board) (i : Nat) (hi : i < 64) :
    (board_hash b).testBit (i + 1) = b.white_pieces.testBit i := by
  have e1 : decide (i + 1 ≥ 65) = false := decide_eq_false (by omega)
  have e2 : decide (i + 1 ≥ 1) = true := decide_eq_true (by omega)
  have e5 : Nat.testBit 1 (i + 1) = false := by
    rw [show (1:Nat) = 2 ^ 0 from rfl, Nat.testBit_two_pow]
    exact decide_eq_false (by omega)
  cases hcp : b.current_player <;>
    simp [board_hash, hcp, Nat.testBit_or, Nat.testBit_shiftLeft, e1, e2,
      Nat.add_sub_cancel, e5] <;>
    (intro h64; exact absurd h64 (by omega))

lemma board_hash_testBit_black (b : Board) (hw : b.white_pieces < 2 ^ 64)
    (i : Nat) :
    (board_hash b).testBit (i + 65) = b.black_pieces.testBit i := by
  have e1 : decide (i + 65 ≥ 65) = true := decide_eq_true (by omega)
  have e2 : decide (i + 65 ≥ 1) = true := decide_eq_true (by omega)
  have e3 : b.white_pieces.testBit (i + 64) = false :=
    Nat.testBit_lt_two_pow
      (lt_of_lt_of_le hw (Nat.pow_le_pow_right (by omega) (by omega)))
  have e5 : Nat.testBit 1 (i + 65) = false := by
    rw [show (1:Nat) = 2 ^ 0 from rfl, Nat.testBit_two_pow]
    exact decide_eq_false (by omega)
  cases hcp : b.current_player <;>
    simp [board_hash, hcp, Nat.testBit_or, Nat.testBit_shiftLeft, e1, e2, e3,
      Nat.add_sub_cancel, e5]

/-
Claim theorems.
-/

/-- C3: applying a move at any square of `get_legal_moves` keeps the two
bitboards disjoint and increases the total disk popcount by exactly one;
`pass_turn` also keeps the bitboards disjoint. -/
theorem C3_apply_preserves_invariants (board : Board) (sq : Nat)
    (hd : board.black_pieces &&& board.white_pieces = 0)
    (hsq : sq ∈ get_legal_moves board) :
    ((make_move board sq).black_pieces &&& (make_move board sq).white_pieces = 0) ∧
    (popcount ((make_move board sq).black_pieces ||| (make_move board sq).white_pieces)
      = popcount (board.black_pieces ||| board.white_pieces) + 1) ∧
    ((pass_turn board).black_pieces &&& (pass_turn board).white_pieces = 0) := by
  refine ⟨make_move_disjoint hd hsq, make_move_popcount hsq, ?_⟩
  simpa [pass_turn] using hd

/-- C3 witness: the invariants at the initial board and the move D3 = 19. -/
theorem C3_apply_preserves_invariants_witness :
    ((make_move Board.initial 19).black_pieces &&&
      (make_move Board.initial 19).white_pieces = 0) ∧
    (popcount ((make_move Board.initial 19).black_pieces |||
        (make_move Board.initial 19).white_pieces)
      = popcount (Board.initial.black_pieces ||| Board.initial.white_pieces) + 1) ∧
    ((pass_turn Board.initial).black_pieces &&&
      (pass_turn Board.initial).white_pieces = 0) :=
  C3_apply_preserves_invariants Board.initial 19 (by decide) (by decide)

/-- C9: `board_hash` never collides on boards whose bitboards fit in 64 bits —
two boards differing in either bitboard or the side to move hash differently. -/
theorem C9_board_hash_injective (b₁ b₂ : Board)
    (h1b : b₁.black_pieces < 2 ^ 64) (h1w : b₁.white_pieces < 2 ^ 64)
    (h2b : b₂.black_pieces < 2 ^ 64) (h2w : b₂.white_pieces < 2 ^ 64)
    (hh : board_hash b₁ = board_hash b₂) : b₁ = b₂ := by
  have hpl : b₁.current_player = b₂.current_player := by
    have h0 := board_hash_testBit_zero b₁
    rw [hh, board_hash_testBit_zero b₂] at h0
    cases hc1 : b₁.current_player <;> cases hc2 : b₂.current_player <;>
      simp [hc1, hc2] at h0 ⊢
  have hwhite : b₁.white_pieces = b₂.white_pieces := by
    apply Nat.eq_of_testBit_eq
    intro i
    by_cases hi : i < 64
    · rw [← board_hash_testBit_white b₁ i hi, hh, board_hash_testBit_white b₂ i hi]
    · rw [Nat.testBit_lt_two_pow, Nat.testBit_lt_two_pow]
      · exact lt_of_lt_of_le h2w (Nat.pow_le_pow_right (by omega) (by omega))
      · exact lt_of_lt_of_le h1w (Nat.pow_le_pow_right (by omega) (by omega))
  have hblack : b₁.black_pieces = b₂.black_pieces := by
    apply Nat.eq_of_testBit_eq
    intro i
    rw [← board_hash_testBit_black b₁ h1w i, hh, board_hash_testBit_black b₂ h2w i]
  cases b₁; cases b₂
  simp_all

/-- C9 witness: the injectivity theorem applied at a concrete board. -/
theorem C9_board_hash_injective_witness :
    (⟨1, 2, Player.black⟩ : Board) = ⟨1, 2, Player.black⟩ :=
  C9_board_hash_injective ⟨1, 2, Player.black⟩ ⟨1, 2, Player.black⟩
    (by norm_num) (by norm_num) (by norm_num) (by norm_num) rfl

/-- C2 (counterexample): on the S4 board the spec expects `is_game_over` to be
false, but it is true — with no black disks on the board, White has nothing to
flip and therefore no legal move either. -/
theorem C2_counterexample : is_game_over scenarioS4 = true := by decide

/-- C2 (amended): on the S4 board `get_legal_moves` is empty, `is_game_over` is
true, and after `pass_turn` the side to move (White) has no legal move. -/
theorem C2_amended_scenario :
    get_legal_moves scenarioS4 = [] ∧
    is_game_over scenarioS4 = true ∧
    get_legal_moves (pass_turn scenarioS4) = [] := by
  refine ⟨by decide, by decide, by decide⟩

/-- C4 (code bug, evaluated at the failing input): on `flipBugBoard`, square 5
is a legal move for Black but `get_flipped_squares` returns the empty list,
contradicting the source's own rule that a legal move flips at least one
opponent piece. -/
theorem C4_legal_move_with_no_flips :
    5 ∈ get_legal_moves flipBugBoard ∧ get_flipped_squares flipBugBoard 5 = [] := by
  refine ⟨by decide, by decide⟩

/-- C7: `evaluate_terminal` returns `10000 + diff` on a positive disk
difference, `-10000 + diff` on a negative one, and `0` on equality, where
`diff` is the player's disk popcount minus the opponent's. -/
theorem C7_terminal_scoring (board : Board) (player : Player) (diff : Int) :
    (popcount (if player = Player.black then board.black_pieces
               else board.white_pieces) : Int)
        - (popcount (if player = Player.black then board.white_pieces
                     else board.black_pieces) : Int) = diff →
    ((diff > 0 → evaluate_terminal board player = 10000 + diff) ∧
     (diff < 0 → evaluate_terminal board player = -10000 + diff) ∧
     (diff = 0 → evaluate_terminal board player = 0)) := by
  intro hdiff
  cases player <;> simp [evaluate_terminal] at hdiff ⊢ <;>
    refine ⟨fun h => ?_, fun h => ?_, fun h => ?_⟩ <;> split_ifs <;> omega

/-- C7 witness: the three branches at concrete boards. -/
theorem C7_terminal_scoring_witness :
    evaluate_terminal ⟨3, 0, Player.black⟩ Player.black = 10002 ∧
    evaluate_terminal ⟨0, 3, Player.black⟩ Player.black = -10002 ∧
    evaluate_terminal ⟨1, 2, Player.black⟩ Player.black = 0 := by
  refine ⟨?_, ?_, ?_⟩
  · exact (C7_terminal_scoring ⟨3, 0, Player.black⟩ Player.black 2 (by decide)).1 (by decide)
  · exact (C7_terminal_scoring ⟨0, 3, Player.black⟩ Player.black (-2) (by decide)).2.1 (by decide)
  · exact (C7_terminal_scoring ⟨1, 2, Player.black⟩ Player.black 0 (by decide)).2.2 (by decide)

set_option maxHeartbeats 2000000 in
/-- C1 (code bug, evaluated at the failing input): on `endgameBugBoard` — a
valid board (`black &&& white = 0`) with 5 ≤ 15 empty squares — `negamax`
delegates to the endgame solver and returns score 10010 (with move 35) under a
full window and fresh tables, yet the exact game-theoretic value is 10012: the
"exact" endgame score promised by the docstring and the spec is wrong (the
solver stores β-cutoff bounds in the transposition table as if they were exact
and always trusts stored entries). -/
theorem C1_endgame_solver_inexact :
    endgameBugBoard.black_pieces &&& endgameBugBoard.white_pieces = 0 ∧
    popcount (endgameBugBoard.black_pieces ||| endgameBugBoard.white_pieces) = 59 ∧
    (negamax 25 endgameBugBoard 8 XInt.negInf XInt.posInf Player.black
        ⟨[], [], []⟩ none 0).map (fun r => (r.1, r.2.1))
      = some (XInt.fin 10010, some 35) ∧
    perfectValue 20 endgameBugBoard Player.black = some 10012 := by
  refine ⟨by decide!, by decide!, by decide!, by decide!⟩

/-
XInt order lemmas supporting the depth-1 order-invariance proof.
-/

lemma XInt.if_blt_eq_max (a b : XInt) :
    (if XInt.blt a b then b else a) = XInt.max a b := by
  cases a <;> cases b <;>
    simp [XInt.max, XInt.ble, XInt.blt] <;> split_ifs <;> simp_all <;> omega

lemma XInt.max_ne_posInf {a b : XInt} (ha : a ≠ XInt.posInf)
    (hb : b ≠ XInt.posInf) : XInt.max a b ≠ XInt.posInf := by
  cases a <;> cases b <;> simp_all [XInt.max, XInt.ble] <;> split_ifs <;> simp

lemma XInt.ble_posInf_eq_false {a : XInt} (ha : a ≠ XInt.posInf) :
    XInt.ble XInt.posInf a = false := by
  cases a <;> simp_all [XInt.ble]

lemma XInt.max_right_comm (a b c : XInt) :
    XInt.max (XInt.max a b) c = XInt.max (XInt.max a c) b := by
  cases a <;> cases b <;> cases c <;>
    simp [XInt.max, XInt.ble] <;> split_ifs <;> simp_all <;> omega

/-- Folding `XInt.max` over a list is invariant under permutations. -/
lemma foldl_xmax_perm {g : Nat → XInt} {l₁ l₂ : List Nat} (hp : l₁.Perm l₂) :
    ∀ init : XInt,
      l₁.foldl (fun a m => XInt.max a (g m)) init =
        l₂.foldl (fun a m => XInt.max a (g m)) init := by
  induction hp with
  | nil => intro init; rfl
  | cons x _ ih => intro init; simp only [List.foldl]; exact ih _
  | swap x y l =>
    intro init
    simp only [List.foldl]
    rw [XInt.max_right_comm]
  | trans _ _ ih₁ ih₂ => intro init; exact (ih₁ _).trans (ih₂ _)

/-- At depth 0 on a position that does not delegate to the endgame solver and
with empty tables, `negamax` just returns the heuristic evaluation. -/
lemma negamaxOrd_depth0 (ord : OrderFn) (fuel : Nat) (b : Board) (α β : XInt)
    (p : Player) (pv : Option Nat) (cd : Nat)
    (hpop : popcount (b.black_pieces ||| b.white_pieces) ≤ 48) :
    negamaxOrd ord fuel b 0 α β p ⟨[], [], []⟩ pv cd
      = some (XInt.fin (evaluate b p), none, ⟨[], [], []⟩) := by
  rw [negamaxOrd]
  rw [if_neg (by push_cast; omega)]
  rfl

/-- The `negamax` move loop at a full window (`β = +∞`) with empty tables,
when every child call returns a plain evaluation: no β-cutoff ever fires, the
state stays empty, and the `(best_score, best_move)` pair is a fold over the
move list. -/
lemma negaLoopF_score_full_window
    (f : Board → XInt → XInt → SearchState →
      Option (XInt × Option Nat × SearchState))
    (board : Board) (depth cd : Nat) (ev : Board → Int) :
    ∀ (l : List Nat) (p : XInt × Option Nat) (alpha : XInt),
      (∀ m ∈ l, ∀ a b, f (make_move board m) a b ⟨[], [], []⟩
        = some (XInt.fin (ev (make_move board m)), none, ⟨[], [], []⟩)) →
      alpha ≠ XInt.posInf →
      negaLoopF f board depth cd XInt.posInf l p.1 p.2 alpha ⟨[], [], []⟩
        = some
            ((l.foldl
                (fun q m =>
                  if XInt.blt q.1 (XInt.fin (-ev (make_move board m))) then
                    (XInt.fin (-ev (make_move board m)), some m)
                  else q) p).1,
             (l.foldl
                (fun q m =>
                  if XInt.blt q.1 (XInt.fin (-ev (make_move board m))) then
                    (XInt.fin (-ev (make_move board m)), some m)
                  else q) p).2,
             ⟨[], [], []⟩) := by
  intro l
  induction l with
  | nil => intro p alpha hf ha; rfl
  | cons m rest ih =>
    intro p alpha hf ha
    obtain ⟨bs, bm⟩ := p
    rw [negaLoopF, hf m (List.mem_cons_self _ _) _ _]
    simp only [XInt.neg]
    have hble : XInt.ble XInt.posInf
        (XInt.max alpha (XInt.fin (-ev (make_move board m)))) = false :=
      XInt.ble_posInf_eq_false (XInt.max_ne_posInf ha (by simp))
    simp only [hble, Bool.false_eq_true, if_false]
    rw [ih (if XInt.blt bs (XInt.fin (-ev (make_move board m))) then
          (XInt.fin (-ev (make_move board m)), some m) else (bs, bm))
        (XInt.max alpha (XInt.fin (-ev (make_move board m))))
        (fun m' hm' _ _ => hf m' (List.mem_cons_of_mem _ hm') _ _)
        (XInt.max_ne_posInf ha (by simp))]
    simp only [List.foldl]

/-- The best-score component of the pair fold is the `XInt.max` fold. -/
lemma foldl_step_fst (g : Nat → XInt) :
    ∀ (l : List Nat) (p : XInt × Option Nat),
      (l.foldl (fun q m => if XInt.blt q.1 (g m) then (g m, some m) else q) p).1
        = l.foldl (fun a m => XInt.max a (g m)) p.1 := by
  intro l
  induction l with
  | nil => intro p; rfl
  | cons m rest ih =>
    intro p
    simp only [List.foldl]
    rw [ih]
    congr 1
    rw [← XInt.if_blt_eq_max]
    split_ifs <;> rfl

/-- The score `negamax` returns at depth 1, full window, empty tables, on a
position with at least 17 empty squares: the terminal value at game over, the
negated evaluation of the passed position when the side to move is stuck, and
otherwise the max-fold of negated child evaluations over the legal moves — in
particular independent of the move ordering, provided it permutes the legal
move list. -/
lemma negamaxOrd_depth1_score (ord : OrderFn) (fuel : Nat) (board : Board)
    (player : Player) (pv : Option Nat) (cd : Nat)
    (hpop : popcount (board.black_pieces ||| board.white_pieces) ≤ 47)
    (hperm : (ord board (get_legal_moves board) pv [] []).Perm
      (get_legal_moves board)) :
    (negamaxOrd ord fuel board 1 XInt.negInf XInt.posInf player
        ⟨[], [], []⟩ pv cd).map (fun r => r.1)
      = some
          (if is_game_over board then XInt.fin (evaluate_terminal board player)
           else if get_legal_moves board = [] then
             XInt.fin (-evaluate (pass_turn board) (oppPlayer player))
           else
             (get_legal_moves board).foldl
               (fun a m =>
                 XInt.max a
                   (XInt.fin (-evaluate (make_move board m) (oppPlayer player))))
               XInt.negInf) := by
  rw [negamaxOrd]
  rw [if_neg (by push_cast; omega)]
  simp only [alistGet?]
  cases hgo : is_game_over board
  · by_cases hmv : get_legal_moves board = []
    · have hppop : popcount ((pass_turn board).black_pieces |||
          (pass_turn board).white_pieces) ≤ 48 := by
        simpa [pass_turn] using Nat.le_succ_of_le hpop
      have hpass := negamaxOrd_depth0 ord fuel (pass_turn board)
        XInt.negInf XInt.posInf (oppPlayer player) none (cd + 1) hppop
      simp [hgo, hmv, hpass, XInt.neg]
    · have hf : ∀ m ∈ ord board (get_legal_moves board) pv [] [], ∀ a b,
          negamaxOrd ord fuel (make_move board m) 0 a b (oppPlayer player)
              ⟨[], [], []⟩ none (cd + 1)
            = some (XInt.fin (evaluate (make_move board m) (oppPlayer player)),
                none, ⟨[], [], []⟩) := by
        intro m hm a b
        apply negamaxOrd_depth0
        have hmem : m ∈ get_legal_moves board := hperm.subset hm
        have := make_move_popcount hmem
        omega
      have hloop := negaLoopF_score_full_window
        (fun b a bb stx => negamaxOrd ord fuel b 0 a bb (oppPlayer player) stx
          none (cd + 1))
        board (0 + 1) cd (fun b' => evaluate b' (oppPlayer player))
        (ord board (get_legal_moves board) pv [] [])
        (XInt.negInf, (ord board (get_legal_moves board) pv [] []).head?)
        XInt.negInf hf (by simp)
      dsimp only at hloop
      simp only [hgo, hmv, alistGetD, alistGet?, Option.getD, if_false,
        Bool.false_eq_true, reduceIte, hloop, Option.map_some]
      rw [foldl_step_fst]
      rw [foldl_xmax_perm hperm]
      simp
  · simp [hgo]

/-- The identity move ordering (a legal ordering: it permutes the moves). -/
def ordId : OrderFn := fun _ moves _ _ _ => moves

/-- The reversed move ordering (a legal ordering: it permutes the moves). -/
def ordRev : OrderFn := fun _ moves _ _ _ => moves.reverse

/-- The position after Black plays D3 from the initial board: 59 empties,
White to move, legal moves [18, 20, 34] with distinct child evaluations. -/
def orderSensitiveBoard : Board := ⟨0x818080000, 0x1000000000, Player.white⟩

/-- C5 (counterexample): with all tables cleared, the score returned by
`negamax` is not invariant under legal reorderings of the explored moves: on
`orderSensitiveBoard` at depth 1 with window (−∞, −15), the identity ordering
returns score 25 while the reversed ordering returns −15 (the β-cutoff stops
the loop at its first move, whose child value depends on the order). -/
theorem C5_counterexample_order_dependent :
    (ordId orderSensitiveBoard (get_legal_moves orderSensitiveBoard) none [] []).Perm
      (get_legal_moves orderSensitiveBoard) ∧
    (ordRev orderSensitiveBoard (get_legal_moves orderSensitiveBoard) none [] []).Perm
      (get_legal_moves orderSensitiveBoard) ∧
    (negamaxOrd ordId 5 orderSensitiveBoard 1 XInt.negInf (XInt.fin (-15))
        Player.white ⟨[], [], []⟩ none 0).map (fun r => r.1)
      = some (XInt.fin 25) ∧
    (negamaxOrd ordRev 5 orderSensitiveBoard 1 XInt.negInf (XInt.fin (-15))
        Player.white ⟨[], [], []⟩ none 0).map (fun r => r.1)
      = some (XInt.fin (-15)) := by
  refine ⟨List.Perm.refl _, List.reverse_perm _, by decide!, by decide!⟩

/-- C5 (amended): with the three tables cleared, a full window `(−∞, +∞)`,
search depth 1, and a position leaving at least 17 empty squares (at most 47
occupied bits, so neither the node nor its depth-0 children delegate to the
endgame solver), the score returned by `negamax` is invariant under the move
ordering: any two ordering functions that permute the legal move list produce
the same score. (Deeper searches and narrower windows are NOT
order-invariant; see the counterexample.) -/
theorem C5_amended_depth1_order_invariance (board : Board) (player : Player)
    (ord₁ ord₂ : OrderFn) (pv₁ pv₂ : Option Nat) (cd : Nat) (fuel : Nat)
    (hpop : popcount (board.black_pieces ||| board.white_pieces) ≤ 47)
    (h₁ : (ord₁ board (get_legal_moves board) pv₁ [] []).Perm
      (get_legal_moves board))
    (h₂ : (ord₂ board (get_legal_moves board) pv₂ [] []).Perm
      (get_legal_moves board)) :
    (negamaxOrd ord₁ fuel board 1 XInt.negInf XInt.posInf player
        ⟨[], [], []⟩ pv₁ cd).map (fun r => r.1)
      = (negamaxOrd ord₂ fuel board 1 XInt.negInf XInt.posInf player
          ⟨[], [], []⟩ pv₂ cd).map (fun r => r.1) := by
  rw [negamaxOrd_depth1_score ord₁ fuel board player pv₁ cd hpop h₁,
    negamaxOrd_depth1_score ord₂ fuel board player pv₂ cd hpop h₂]

/-- C5 amended witness: identity versus reversed ordering at the concrete
order-sensitive board, full window, depth 1. -/
theorem C5_amended_depth1_order_invariance_witness :
    (negamaxOrd ordId 5 orderSensitiveBoard 1 XInt.negInf XInt.posInf
        Player.white ⟨[], [], []⟩ none 0).map (fun r => r.1)
      = (negamaxOrd ordRev 5 orderSensitiveBoard 1 XInt.negInf XInt.posInf
          Player.white ⟨[], [], []⟩ none 0).map (fun r => r.1) :=
  C5_amended_depth1_order_invariance orderSensitiveBoard Player.white
    ordId ordRev none none 0 5 (by decide!)
    (List.Perm.refl _) (List.reverse_perm _)

/-- C6: if the root has no legal move, `get_best_move` returns
`(None, 0, 0)`; if it has exactly one legal move `m`, it returns `(m, 0.0, 0)`
— in both cases before any clock reading, so independently of the time budget
and of the clock behaviour. -/
theorem C6_trivial_roots (fuel : Nat) (times : Nat → Int) (board : Board)
    (time_limit : Int) (st : EngineState) :
    (get_legal_moves board = [] →
      (get_best_move fuel times board time_limit st).map (fun r => r.1) =
        some (none, XInt.fin 0, 0)) ∧
    (∀ m, get_legal_moves board = [m] →
      (get_best_move fuel times board time_limit st).map (fun r => r.1) =
        some (some m, XInt.fin 0, 0)) := by
  constructor
  · intro h
    simp [get_best_move, h]
  · intro m h
    simp [get_best_move, h]

/-- C6 witness: the no-move board S4 and the single-move board
`flipBugBoard` (whose unique legal move is 5), under a concrete clock. -/
theorem C6_trivial_roots_witness :
    (get_best_move 3 (fun _ => 0) scenarioS4 5 ⟨[], [], [], 0, 0, none⟩).map
        (fun r => r.1) = some (none, XInt.fin 0, 0) ∧
    (get_best_move 3 (fun _ => 0) flipBugBoard 5 ⟨[], [], [], 0, 0, none⟩).map
        (fun r => r.1) = some (some 5, XInt.fin 0, 0) :=
  ⟨(C6_trivial_roots 3 (fun _ => 0) scenarioS4 5 ⟨[], [], [], 0, 0, none⟩).1
      (by decide),
   (C6_trivial_roots 3 (fun _ => 0) flipBugBoard 5 ⟨[], [], [], 0, 0, none⟩).2 5
      (by decide)⟩

/-- C10: terminal evaluation is antisymmetric in the player argument, the
property the negamax negation step relies on at game-over leaves. -/
theorem C10_terminal_antisymmetric (board : Board) :
    evaluate_terminal board Player.black = -evaluate_terminal board Player.white := by
  unfold evaluate_terminal
  simp only [reduceCtorEq, if_true, if_false, reduceIte]
  split_ifs <;> omega

/-- C8: `make_move` hands the turn to the opponent, and `pass_turn` hands the
turn to the opponent while leaving both bitboards exactly unchanged. -/
theorem C8_turn_alternation (board : Board) (square : Nat) :
    (make_move board square).current_player = oppPlayer board.current_player ∧
    (pass_turn board).current_player = oppPlayer board.current_player ∧
    (pass_turn board).black_pieces = board.black_pieces ∧
    (pass_turn board).white_pieces = board.white_pieces := by
  cases h : board.current_player <;>
    simp [make_move, pass_turn, oppPlayer, h]

end Othello
